import Mathlib

/-!
Shallow embedding of the persistent-json library: a JSON-like `Value` tagged union
whose `Object` variant is an ordered map built from two parallel sequences (`keys`
sorted and unique, `values` index-aligned), with binary-search lookup, an entry API,
polymorphic read/write indexing, and a `Number` tagged union.

Sequences of the external persistent-sequence library are embedded as Lean lists;
its positional operations are the corresponding list operations, and its
`equal_range` and `dual_sort` operations are modelled from the spec of its
interface.  Operations that can panic in the source are embedded with `Option`
results, `none` standing for the panic.

The map development is generic over a linearly ordered key type `K` (the source
uses byte strings under their lexicographic total order) and over the value type
`V` wherever the operation does not inspect values.
-/

namespace PersistentJson

variable {K V : Type} [LinearOrder K]

/-- Number of elements of `keys` strictly below `key`.  On a sorted sequence this is
the start of the equal range for `key`, which is what the external library's binary
search computes. -/
def lowerCount (keys : List K) (key : K) : Nat :=
  keys.countP (fun x => decide (x < key))

/-- Number of elements of `keys` not above `key`.  On a sorted sequence this is the
stop of the equal range for `key`. -/
def upperCount (keys : List K) (key : K) : Nat :=
  keys.countP (fun x => decide (x ≤ key))

/-- Number of elements of `keys` equal to `key`. -/
def eqCount (keys : List K) (key : K) : Nat :=
  keys.countP (fun x => decide (x = key))

/-- Modelled from the spec: the external persistent sequence's `equal_range` query, a
binary search over a sorted sequence returning `Ok` of the span of elements equal to
the search key, or `Err` of the insertion position that keeps the sequence sorted. -/
def equalRange (keys : List K) (key : K) : Except Nat (Nat × Nat) :=
  if lowerCount keys key < upperCount keys key then
    Except.ok (lowerCount keys key, upperCount keys key)
  else
    Except.error (lowerCount keys key)

/-- Modelled from the spec: the external persistent sequence's `dual_sort`, which
reorders the first sequence into sorted order while applying the identical
permutation to the second sequence.  Embedded by stably sorting the zipped pairs by
key and projecting the two sides back out. -/
def dualSort (keys : List K) (values : List V) : List K × List V :=
  let ps := List.insertionSort (fun a b : K × V => a.1 ≤ b.1) (keys.zip values)
  (ps.map Prod.fst, ps.map Prod.snd)

/-- The `Object` ordered map: two parallel sequences, `keys` (kept strictly
increasing) and `values` (index-aligned with `keys`). -/
structure Object (K V : Type) where
  keys : List K
  values : List V
deriving DecidableEq

/-- The maintained invariant of `Object`: the two sequences have equal length and the
keys are strictly increasing (sorted with no duplicates). -/
def Object.invariant (o : Object K V) : Prop :=
  o.keys.length = o.values.length ∧ o.keys.Sorted (· < ·)

instance (o : Object K V) : Decidable o.invariant :=
  inferInstanceAs (Decidable (_ ∧ _))

/-- Source `Object::new`: both sequences empty. -/
def Object.new : Object K V := ⟨[], []⟩

/-- Source `Object::len`: the length of the keys sequence. -/
def Object.len (o : Object K V) : Nat := o.keys.length

/-- Source `Object::is_empty`: length zero. -/
def Object.is_empty (o : Object K V) : Bool := o.len == 0

/-- Source `Object::clear`: the body is `unimplemented!()`, an unconditional panic,
embedded as `none`.  A successful run returning the cleared object would be `some`. -/
def Object.clear (_o : Object K V) : Option (Object K V) := none

/-- Source `Object::get_index_for_key`: run `equal_range` on `keys`; a found range
yields `Ok` of its start (its length is 1 whenever the invariant holds), a miss
yields `Err` of the insertion position. -/
def Object.get_index_for_key (o : Object K V) (key : K) : Except Nat Nat :=
  match equalRange o.keys key with
  | Except.ok range => Except.ok range.1
  | Except.error position => Except.error position

/-- Source `Object::get`: on a found index, the value at that index. -/
def Object.get (o : Object K V) (key : K) : Option V :=
  (o.get_index_for_key key).toOption.bind fun v => o.values[v]?

/-- Source `Object::get_mut`: the same lookup as `get`, with a mutable result; the
embedding returns the looked-up value. -/
def Object.get_mut (o : Object K V) (key : K) : Option V :=
  (o.get_index_for_key key).toOption.bind fun v => o.values[v]?

/-- Source `Object::contains_key`: the index lookup succeeds. -/
def Object.contains_key (o : Object K V) (key : K) : Bool :=
  (o.get_index_for_key key).toOption.isSome

/-- Source `Object::insert`: on a found position, replace the value there and return
the old one (the source unwraps the element, which exists whenever the invariant
holds); on a miss, insert key and value at the returned position and return `None`. -/
def Object.insert (o : Object K V) (k : K) (v : V) : Object K V × Option V :=
  match o.get_index_for_key k with
  | Except.ok position =>
      (⟨o.keys, o.values.set position v⟩, o.values[position]?)
  | Except.error position =>
      (⟨o.keys.insertIdx position k, o.values.insertIdx position v⟩, none)

/-- Source `Object::remove`: on a found position, remove that element from both
sequences in lock-step and return the removed value; on a miss, return `None` and
leave the object untouched. -/
def Object.remove (o : Object K V) (key : K) : Object K V × Option V :=
  match o.get_index_for_key key with
  | Except.ok position =>
      (⟨o.keys.eraseIdx position, o.values.eraseIdx position⟩, o.values[position]?)
  | Except.error _ => (o, none)

/-- Source `Object::append`: take both sequences out of `other` (leaving it empty),
concatenate them onto `self`'s sequences, and dual-sort the keys, applying the same
permutation to the values. -/
def Object.append (o other : Object K V) : Object K V × Object K V :=
  let sorted := dualSort (o.keys ++ other.keys) (o.values ++ other.values)
  (⟨sorted.1, sorted.2⟩, ⟨[], []⟩)

/-- The entry handle: `Vacant` carries the pending key and its target insertion
position, `Occupied` the resolved existing position.  (The source handles also
carry the mutable borrows of the two sequences; the embedding passes the object
explicitly to each entry operation.) -/
inductive Entry (K : Type) where
  | Vacant (key : K) (idx : Nat)
  | Occupied (idx : Nat)
deriving DecidableEq

/-- Source `Object::entry`: one lookup, producing `Occupied` of the matched position
or `Vacant` of the key and its computed insertion position. -/
def Object.entry (o : Object K V) (key : K) : Entry K :=
  match o.get_index_for_key key with
  | Except.ok idx => Entry.Occupied idx
  | Except.error idx => Entry.Vacant key idx

/-- Source `VacantEntry::insert`: insert the key and the value at the pre-computed
position in both sequences and return a mutable reference to the newly stored value
(the source unwraps it; `none` embeds that panic, impossible at a valid position). -/
def VacantEntry.insert (o : Object K V) (key : K) (idx : Nat) (value : V) :
    Object K V × Option V :=
  (⟨o.keys.insertIdx idx key, o.values.insertIdx idx value⟩,
    (o.values.insertIdx idx value)[idx]?)

/-- Source `OccupiedEntry::insert`: replace the value at the resolved position and
return the prior value (the source unwraps the element; `none` embeds that panic,
impossible at a valid position). -/
def OccupiedEntry.insert (o : Object K V) (idx : Nat) (value : V) :
    Object K V × Option V :=
  (⟨o.keys, o.values.set idx value⟩, o.values[idx]?)

/-- Source `OccupiedEntry::remove`: remove the element at the resolved position from
both sequences and return the removed value. -/
def OccupiedEntry.remove (o : Object K V) (idx : Nat) : Object K V × Option V :=
  (⟨o.keys.eraseIdx idx, o.values.eraseIdx idx⟩, o.values[idx]?)

/-- Source `OccupiedEntry::get` and `into_mut`: the value at the resolved position. -/
def OccupiedEntry.get (o : Object K V) (idx : Nat) : Option V :=
  o.values[idx]?

/-- Source `Entry::or_insert`: a vacant entry performs the deferred insert of the
default and returns the newly stored value; an occupied entry returns the existing
value unchanged. -/
def Entry.or_insert (o : Object K V) (e : Entry K) (default : V) :
    Object K V × Option V :=
  match e with
  | Entry.Vacant key idx => VacantEntry.insert o key idx default
  | Entry.Occupied idx => (o, OccupiedEntry.get o idx)

/-- Source `Entry::or_insert_with`: as `or_insert`, with the default produced by a
closure that is evaluated only in the vacant branch. -/
def Entry.or_insert_with (o : Object K V) (e : Entry K) (default : Unit → V) :
    Object K V × Option V :=
  match e with
  | Entry.Vacant key idx => VacantEntry.insert o key idx (default ())
  | Entry.Occupied idx => (o, OccupiedEntry.get o idx)

/-- The finiteness classification of a 64-bit float, the only property of the
payload that the embedded code inspects; the numeric payload itself is irrelevant
to every claim about `Number` and is not modelled. -/
structure F64 where
  isFinite : Bool
deriving DecidableEq

/-- Source `Number`: a closed tagged union over a non-negative 64-bit integer, a
strictly negative signed 64-bit integer, and a finite float. -/
inductive Number where
  | PosInt (n : Nat)
  | NegInt (n : Int)
  | Float (f : F64)
deriving DecidableEq

/-- The value of `i64::max_value()`, which equals `2 ^ 63 - 1`. -/
def i64Max : Nat := 9223372036854775807

/-- Source `Number::is_i64`: a `PosInt` fits iff it is at most `i64::MAX`; a
`NegInt` always fits; a `Float` never does. -/
def Number.is_i64 : Number → Bool
  | Number.PosInt v => v ≤ i64Max
  | Number.NegInt _ => true
  | Number.Float _ => false

/-- Source `Number::is_u64`: exactly the `PosInt` variant. -/
def Number.is_u64 : Number → Bool
  | Number.PosInt _ => true
  | Number.NegInt _ => false
  | Number.Float _ => false

/-- Source `Number::is_f64`: exactly the `Float` variant. -/
def Number.is_f64 : Number → Bool
  | Number.PosInt _ => false
  | Number.NegInt _ => false
  | Number.Float _ => true

/-- Source `Number::as_i64`: a `PosInt` converts iff it is at most `i64::MAX`; a
`NegInt` converts as itself; a `Float` never converts. -/
def Number.as_i64 : Number → Option Int
  | Number.PosInt n => if n ≤ i64Max then some (n : Int) else none
  | Number.NegInt n => some n
  | Number.Float _ => none

/-- Source `Number::as_u64`: a `PosInt` converts as itself; the other variants never
convert. -/
def Number.as_u64 : Number → Option Nat
  | Number.PosInt n => some n
  | Number.NegInt _ => none
  | Number.Float _ => none

/-- Source `Number::from_f64`: succeeds exactly on a finite input. -/
def Number.from_f64 (f : F64) : Option Number :=
  if f.isFinite then some (Number.Float f) else none

/-- Source `Value`: the closed JSON-like tagged union.  The `Object` variant holds
the ordered map keyed by `K` with `Value K` payloads. -/
inductive Value (K : Type) where
  | null
  | number (n : Number)
  | string (s : K)
  | bool (b : Bool)
  | array (arr : List (Value K))
  | object (obj : Object K (Value K))

/-- Source `Value::is_array`. -/
def Value.is_array : Value K → Bool
  | Value.array _ => true
  | _ => false

/-- Source `Value::is_object`. -/
def Value.is_object : Value K → Bool
  | Value.object _ => true
  | _ => false

/-- Source `Value::is_null`. -/
def Value.is_null : Value K → Bool
  | Value.null => true
  | _ => false

/-- Source `<usize as Index>::index_into`: the element of an `Array` at the position
when in bounds, otherwise `None`; `None` on every other variant. -/
def usizeIndexInto (i : Nat) (v : Value K) : Option (Value K) :=
  match v with
  | Value.array arr => arr[i]?
  | _ => none

/-- Source `<str as Index>::index_into`: the matched value of an `Object`,
otherwise `None`; `None` on every other variant. -/
def strIndexInto (s : K) (v : Value K) : Option (Value K) :=
  match v with
  | Value.object obj => obj.get s
  | _ => none

/-- Source `<usize as Index>::index_or_insert`: on an `Array`, unwrap the element at
the position (a panic out of bounds, embedded as `none`); every other variant is an
unconditional panic.  A success carries the unchanged value and the element the
returned mutable reference points at. -/
def usizeIndexOrInsert (i : Nat) (v : Value K) : Option (Value K × Value K) :=
  match v with
  | Value.array arr =>
      match arr[i]? with
      | some x => some (Value.array arr, x)
      | none => none
  | _ => none

/-- Source `<str as Index>::index_or_insert`: on an `Object`, `entry(key).or_insert(Null)`
(inserting a `Null` placeholder when the key is absent); every other variant is an
unconditional panic, embedded as `none`.  A success carries the updated value and
the element the returned mutable reference points at. -/
def strIndexOrInsert (s : K) (v : Value K) : Option (Value K × Value K) :=
  match v with
  | Value.object obj =>
      let r := Entry.or_insert obj (obj.entry s) Value.null
      match r.2 with
      | some target => some (Value.object r.1, target)
      | none => none
  | _ => none

/-- Source `ops::Index` for `Value` at a positional index: the read-path lookup with
`None` mapped to the shared `Null` sentinel. -/
def Value.indexUsize (v : Value K) (i : Nat) : Value K :=
  (usizeIndexInto i v).getD Value.null

/-- Source `ops::Index` for `Value` at a string-like key: the read-path lookup with
`None` mapped to the shared `Null` sentinel. -/
def Value.indexStr (v : Value K) (s : K) : Value K :=
  (strIndexInto s v).getD Value.null

/-! ### Counting lemmas for the binary-search model -/

theorem lowerCount_le_length (keys : List K) (key : K) :
    lowerCount keys key ≤ keys.length :=
  List.countP_le_length _

theorem upperCount_le_length (keys : List K) (key : K) :
    upperCount keys key ≤ keys.length :=
  List.countP_le_length _

theorem upperCount_split (keys : List K) (key : K) :
    upperCount keys key = lowerCount keys key + eqCount keys key := by
  induction keys with
  | nil => rfl
  | cons a t ih =>
    unfold upperCount lowerCount eqCount at ih ⊢
    rw [List.countP_cons, List.countP_cons, List.countP_cons, ih]
    have hcase : (if decide (a ≤ key) = true then 1 else 0) =
        (if decide (a < key) = true then 1 else 0) +
          (if decide (a = key) = true then 1 else 0) := by
      rcases lt_trichotomy a key with h | h | h
      · rw [decide_eq_true h.le, decide_eq_true h, decide_eq_false (ne_of_lt h)]
        simp
      · subst h
        rw [decide_eq_true le_rfl, decide_eq_false (lt_irrefl a), decide_eq_true rfl]
        simp
      · rw [decide_eq_false (not_le.2 h), decide_eq_false (not_lt.2 h.le),
          decide_eq_false (ne_of_gt h)]
        simp
    omega

theorem eqCount_pos_iff (keys : List K) (key : K) :
    0 < eqCount keys key ↔ key ∈ keys := by
  unfold eqCount
  rw [List.countP_pos_iff]
  constructor
  · rintro ⟨a, ha, hp⟩
    rw [of_decide_eq_true hp] at ha
    exact ha
  · intro h
    exact ⟨key, h, by simp⟩

theorem eqCount_eq_zero_of_not_mem (keys : List K) (key : K) (h : key ∉ keys) :
    eqCount keys key = 0 := by
  have := (eqCount_pos_iff keys key).not.2 h
  omega

theorem search_hit_iff (keys : List K) (key : K) :
    lowerCount keys key < upperCount keys key ↔ key ∈ keys := by
  rw [upperCount_split]
  constructor
  · intro h
    exact (eqCount_pos_iff keys key).1 (by omega)
  · intro h
    have := (eqCount_pos_iff keys key).2 h
    omega

theorem lowerCount_lt_length_of_mem (keys : List K) (key : K) (hm : key ∈ keys) :
    lowerCount keys key < keys.length := by
  have h1 := (search_hit_iff keys key).2 hm
  have h2 := upperCount_le_length keys key
  omega

/-! ### Normal forms for the lookup path -/

theorem get_index_eq (o : Object K V) (key : K) :
    o.get_index_for_key key =
      if key ∈ o.keys then Except.ok (lowerCount o.keys key)
      else Except.error (lowerCount o.keys key) := by
  unfold Object.get_index_for_key equalRange
  by_cases h : key ∈ o.keys
  · rw [if_pos ((search_hit_iff o.keys key).2 h), if_pos h]
  · rw [if_neg ((search_hit_iff o.keys key).not.2 h), if_neg h]

theorem contains_eq (o : Object K V) (key : K) :
    o.contains_key key = decide (key ∈ o.keys) := by
  unfold Object.contains_key
  rw [get_index_eq]
  by_cases h : key ∈ o.keys <;> simp [h, Except.toOption]

theorem get_eq_found (o : Object K V) (key : K) (hm : key ∈ o.keys) :
    o.get key = o.values[lowerCount o.keys key]? := by
  unfold Object.get
  rw [get_index_eq, if_pos hm]
  rfl

theorem get_eq_missing (o : Object K V) (key : K) (hm : key ∉ o.keys) :
    o.get key = none := by
  unfold Object.get
  rw [get_index_eq, if_neg hm]
  rfl

theorem get_mut_eq_get (o : Object K V) (key : K) :
    o.get_mut key = o.get key := rfl

theorem insert_eq_found (o : Object K V) (k : K) (v : V) (hm : k ∈ o.keys) :
    o.insert k v =
      (⟨o.keys, o.values.set (lowerCount o.keys k) v⟩,
        o.values[lowerCount o.keys k]?) := by
  unfold Object.insert
  rw [get_index_eq, if_pos hm]

theorem insert_eq_missing (o : Object K V) (k : K) (v : V) (hm : k ∉ o.keys) :
    o.insert k v =
      (⟨o.keys.insertIdx (lowerCount o.keys k) k,
        o.values.insertIdx (lowerCount o.keys k) v⟩, none) := by
  unfold Object.insert
  rw [get_index_eq, if_neg hm]

theorem remove_eq_found (o : Object K V) (key : K) (hm : key ∈ o.keys) :
    o.remove key =
      (⟨o.keys.eraseIdx (lowerCount o.keys key),
        o.values.eraseIdx (lowerCount o.keys key)⟩,
        o.values[lowerCount o.keys key]?) := by
  unfold Object.remove
  rw [get_index_eq, if_pos hm]

theorem remove_eq_missing (o : Object K V) (key : K) (hm : key ∉ o.keys) :
    o.remove key = (o, none) := by
  unfold Object.remove
  rw [get_index_eq, if_neg hm]

theorem entry_eq (o : Object K V) (key : K) :
    o.entry key =
      if key ∈ o.keys then Entry.Occupied (lowerCount o.keys key)
      else Entry.Vacant key (lowerCount o.keys key) := by
  unfold Object.entry
  rw [get_index_eq]
  by_cases h : key ∈ o.keys <;> simp [h]

/-! ### Structure of a sorted key sequence around the search position -/

theorem sorted_lowerCount_split (keys : List K) (key : K) (h : keys.Sorted (· < ·)) :
    (∀ x ∈ keys.take (lowerCount keys key), x < key) ∧
      (∀ x ∈ keys.drop (lowerCount keys key), ¬x < key) := by
  induction keys with
  | nil => exact ⟨by simp, by simp⟩
  | cons a t ih =>
    rw [List.sorted_cons] at h
    obtain ⟨ha, ht⟩ := h
    obtain ⟨ih1, ih2⟩ := ih ht
    by_cases hak : a < key
    · have hstep : lowerCount (a :: t) key = lowerCount t key + 1 := by
        unfold lowerCount
        rw [List.countP_cons, decide_eq_true hak]
        simp
      rw [hstep]
      constructor
      · intro x hx
        rw [List.take_succ_cons] at hx
        rcases List.mem_cons.1 hx with rfl | hx
        · exact hak
        · exact ih1 x hx
      · intro x hx
        rw [List.drop_succ_cons] at hx
        exact ih2 x hx
    · have hz : lowerCount t key = 0 := by
        unfold lowerCount
        rw [List.countP_eq_zero]
        intro x hx
        simp only [decide_eq_true_eq]
        intro hlt
        exact hak (lt_trans (ha x hx) hlt)

      have hstep : lowerCount (a :: t) key = 0 := by
        unfold lowerCount at hz ⊢
        rw [List.countP_cons, decide_eq_false hak]
        simpa using hz
      rw [hstep]
      refine ⟨by simp, ?_⟩
      intro x hx
      rw [List.drop_zero] at hx
      rcases List.mem_cons.1 hx with rfl | hx
      · exact hak
      · intro hlt
        exact hak (lt_trans (ha x hx) hlt)

theorem getElem?_lowerCount (keys : List K) (key : K) (h : keys.Sorted (· < ·))
    (hm : key ∈ keys) : keys[lowerCount keys key]? = some key := by
  have hlt := lowerCount_lt_length_of_mem keys key hm
  obtain ⟨h1, h2⟩ := sorted_lowerCount_split keys key h
  rw [List.getElem?_eq_getElem hlt]
  have hd : keys.drop (lowerCount keys key) =
      keys[lowerCount keys key] :: keys.drop (lowerCount keys key + 1) :=
    List.drop_eq_getElem_cons hlt
  have hkeymem : key ∈ keys.drop (lowerCount keys key) := by
    have hsplit : key ∈ keys.take (lowerCount keys key) ∨
        key ∈ keys.drop (lowerCount keys key) := by
      rw [← List.mem_append, List.take_append_drop]
      exact hm
    rcases hsplit with hk | hk
    · exact absurd (h1 key hk) (lt_irrefl key)
    · exact hk
  have hsorted_drop : (keys.drop (lowerCount keys key)).Pairwise (· < ·) :=
    List.Pairwise.sublist (List.drop_sublist _ _) h
  rw [hd] at hkeymem hsorted_drop
  rcases List.mem_cons.1 hkeymem with heq | htail
  · exact congrArg some heq.symm
  · rw [List.pairwise_cons] at hsorted_drop
    have hlt2 := hsorted_drop.1 key htail
    have hge : ¬keys[lowerCount keys key] < key := by
      apply h2
      rw [hd]
      exact List.mem_cons_self _ _
    exact absurd hlt2 hge

theorem eqCount_le_one (keys : List K) (key : K) (h : keys.Sorted (· < ·)) :
    eqCount keys key ≤ 1 := by
  induction keys with
  | nil => simp [eqCount]
  | cons a t ih =>
    rw [List.sorted_cons] at h
    obtain ⟨ha, ht⟩ := h
    unfold eqCount at ih ⊢
    rw [List.countP_cons]
    by_cases hak : a = key
    · subst hak
      have hz : t.countP (fun x => decide (x = a)) = 0 := by
        rw [List.countP_eq_zero]
        intro x hx
        simp only [decide_eq_true_eq]
        intro hxa
        subst hxa
        exact absurd (ha x hx) (lt_irrefl x)
      rw [hz, decide_eq_true rfl]
      simp
    · rw [decide_eq_false hak]
      simpa using ih ht

theorem eqCount_eq_one (keys : List K) (key : K) (h : keys.Sorted (· < ·))
    (hm : key ∈ keys) : eqCount keys key = 1 := by
  have hpos := (eqCount_pos_iff keys key).2 hm
  have hle := eqCount_le_one keys key h
  omega

theorem insertIdx_eq_take_cons_drop {α : Type} (l : List α) (n : Nat) (a : α)
    (h : n ≤ l.length) : l.insertIdx n a = l.take n ++ a :: l.drop n := by
  induction l generalizing n with
  | nil =>
    have : n = 0 := by simpa using h
    subst this
    rfl
  | cons x t ih =>
    cases n with
    | zero => rfl
    | succ m =>
      rw [List.insertIdx_succ_cons, List.take_succ_cons, List.drop_succ_cons,
        ih m (by simpa using h)]
      rfl

theorem getElem?_insertIdx_self {α : Type} (l : List α) (n : Nat) (a : α)
    (h : n ≤ l.length) : (l.insertIdx n a)[n]? = some a := by
  rw [List.getElem?_eq_getElem (by rw [List.length_insertIdx n l h]; omega)]
  rw [List.getElem_insertIdx_self l a n h]

theorem insert_sorted (keys : List K) (key : K) (h : keys.Sorted (· < ·))
    (hnm : key ∉ keys) :
    (keys.insertIdx (lowerCount keys key) key).Sorted (· < ·) := by
  obtain ⟨h1, h2⟩ := sorted_lowerCount_split keys key h
  rw [insertIdx_eq_take_cons_drop _ _ _ (lowerCount_le_length keys key)]
  rw [List.Sorted, List.pairwise_append]
  refine ⟨List.Pairwise.sublist (List.take_sublist _ _) h, ?_, ?_⟩
  · rw [List.pairwise_cons]
    refine ⟨?_, List.Pairwise.sublist (List.drop_sublist _ _) h⟩
    intro x hx
    have hxne : x ≠ key := by
      intro heq
      subst heq
      exact hnm (List.mem_of_mem_drop hx)
    exact lt_of_le_of_ne (not_lt.1 (h2 x hx)) (Ne.symm hxne)
  · intro x hx y hy
    rcases List.mem_cons.1 hy with rfl | hy
    · exact h1 x hx
    · exact lt_of_lt_of_le (h1 x hx) (not_lt.1 (h2 y hy))

theorem countP_insertIdx {α : Type} (l : List α) (n : Nat) (a : α) (p : α → Bool)
    (h : n ≤ l.length) : (l.insertIdx n a).countP p = ((a :: l).countP p) :=
  (List.perm_insertIdx a l h).countP_eq p

theorem lowerCount_insertIdx (keys : List K) (key : K) (n : Nat)
    (h : n ≤ keys.length) :
    lowerCount (keys.insertIdx n key) key = lowerCount keys key := by
  unfold lowerCount
  rw [countP_insertIdx keys n key _ h, List.countP_cons,
    decide_eq_false (lt_irrefl key)]
  simp

theorem eqCount_insertIdx_self (keys : List K) (key : K) (n : Nat)
    (h : n ≤ keys.length) :
    eqCount (keys.insertIdx n key) key = eqCount keys key + 1 := by
  unfold eqCount
  rw [countP_insertIdx keys n key _ h, List.countP_cons, decide_eq_true rfl]
  simp

theorem not_mem_eraseIdx_lowerCount (keys : List K) (key : K)
    (h : keys.Sorted (· < ·)) (hm : key ∈ keys) :
    key ∉ keys.eraseIdx (lowerCount keys key) := by
  have hlt := lowerCount_lt_length_of_mem keys key hm
  obtain ⟨h1, h2⟩ := sorted_lowerCount_split keys key h
  rw [List.eraseIdx_eq_take_drop_succ]
  intro hmem
  rcases List.mem_append.1 hmem with hk | hk
  · exact absurd (h1 key hk) (lt_irrefl key)
  · have hd : keys.drop (lowerCount keys key) =
        keys[lowerCount keys key] :: keys.drop (lowerCount keys key + 1) :=
      List.drop_eq_getElem_cons hlt
    have hget : keys[lowerCount keys key] = key := by
      have := getElem?_lowerCount keys key h hm
      rw [List.getElem?_eq_getElem hlt] at this
      exact Option.some_injective _ this
    have hsd : (keys.drop (lowerCount keys key)).Pairwise (· < ·) :=
      List.Pairwise.sublist (List.drop_sublist _ _) h
    rw [hd, hget, List.pairwise_cons] at hsd
    exact absurd (hsd.1 key hk) (lt_irrefl key)

/-! ### Object level consequences of the search lemmas -/

theorem get_isSome_of_mem (o : Object K V) (key : K)
    (hlen : o.keys.length = o.values.length) (hm : key ∈ o.keys) :
    (o.get key).isSome = true := by
  rw [get_eq_found o key hm]
  have hlt : lowerCount o.keys key < o.values.length := by
    have := lowerCount_lt_length_of_mem o.keys key hm
    omega
  rw [List.getElem?_eq_getElem hlt]
  rfl

theorem get_isSome_iff (o : Object K V) (key : K)
    (hlen : o.keys.length = o.values.length) :
    (o.get key).isSome = true ↔ key ∈ o.keys := by
  constructor
  · intro hs
    by_contra hm
    rw [get_eq_missing o key hm] at hs
    exact absurd hs (by simp)
  · exact get_isSome_of_mem o key hlen

theorem insert_invariant (o : Object K V) (k : K) (v : V) (h : o.invariant) :
    ((o.insert k v).1).invariant := by
  obtain ⟨hlen, hsort⟩ := h
  by_cases hm : k ∈ o.keys
  · rw [insert_eq_found o k v hm]
    exact ⟨by simpa using hlen, hsort⟩
  · rw [insert_eq_missing o k v hm]
    have hle : lowerCount o.keys k ≤ o.keys.length := lowerCount_le_length _ _
    refine ⟨?_, insert_sorted o.keys k hsort hm⟩
    rw [List.length_insertIdx _ _ hle, List.length_insertIdx _ _ (by omega)]
    omega

theorem get_insert_self (o : Object K V) (k : K) (v : V) (h : o.invariant) :
    ((o.insert k v).1).get k = some v := by
  obtain ⟨hlen, hsort⟩ := h
  by_cases hm : k ∈ o.keys
  · rw [insert_eq_found o k v hm]
    have hlt : lowerCount o.keys k < o.values.length := by
      have := lowerCount_lt_length_of_mem o.keys k hm
      omega
    rw [get_eq_found ⟨o.keys, o.values.set (lowerCount o.keys k) v⟩ k hm]
    exact List.getElem?_set_self hlt
  · rw [insert_eq_missing o k v hm]
    have hle : lowerCount o.keys k ≤ o.keys.length := lowerCount_le_length _ _
    have hmem : k ∈ o.keys.insertIdx (lowerCount o.keys k) k :=
      (List.mem_insertIdx hle).2 (Or.inl rfl)
    rw [get_eq_found _ k hmem]
    rw [show (⟨o.keys.insertIdx (lowerCount o.keys k) k,
        o.values.insertIdx (lowerCount o.keys k) v⟩ : Object K V).keys =
        o.keys.insertIdx (lowerCount o.keys k) k from rfl]
    rw [lowerCount_insertIdx o.keys k _ hle]
    exact getElem?_insertIdx_self o.values _ v (by omega)

theorem insert_snd_eq_get (o : Object K V) (k : K) (v : V) (hm : k ∈ o.keys) :
    (o.insert k v).2 = o.get k := by
  rw [insert_eq_found o k v hm, get_eq_found o k hm]

theorem mem_insert_self (o : Object K V) (k : K) (v : V) :
    k ∈ ((o.insert k v).1).keys := by
  by_cases hm : k ∈ o.keys
  · rw [insert_eq_found o k v hm]
    exact hm
  · rw [insert_eq_missing o k v hm]
    exact (List.mem_insertIdx (lowerCount_le_length _ _)).2 (Or.inl rfl)

theorem eqCount_insert_self (o : Object K V) (k : K) (v : V) (h : o.invariant) :
    eqCount ((o.insert k v).1).keys k = 1 := by
  obtain ⟨hlen, hsort⟩ := h
  by_cases hm : k ∈ o.keys
  · rw [insert_eq_found o k v hm]
    exact eqCount_eq_one o.keys k hsort hm
  · rw [insert_eq_missing o k v hm]
    rw [show (⟨o.keys.insertIdx (lowerCount o.keys k) k,
        o.values.insertIdx (lowerCount o.keys k) v⟩ : Object K V).keys =
        o.keys.insertIdx (lowerCount o.keys k) k from rfl]
    rw [eqCount_insertIdx_self o.keys k _ (lowerCount_le_length _ _),
      eqCount_eq_zero_of_not_mem o.keys k hm]

theorem remove_invariant (o : Object K V) (key : K) (h : o.invariant) :
    ((o.remove key).1).invariant := by
  obtain ⟨hlen, hsort⟩ := h
  by_cases hm : key ∈ o.keys
  · rw [remove_eq_found o key hm]
    refine ⟨?_, List.Pairwise.sublist (List.eraseIdx_sublist _ _) hsort⟩
    have hlt := lowerCount_lt_length_of_mem o.keys key hm
    rw [List.length_eraseIdx_of_lt hlt, List.length_eraseIdx_of_lt (by omega)]
    omega
  · rw [remove_eq_missing o key hm]
    exact ⟨hlen, hsort⟩

theorem get_remove_self (o : Object K V) (key : K) (h : o.invariant) :
    ((o.remove key).1).get key = none := by
  obtain ⟨hlen, hsort⟩ := h
  by_cases hm : key ∈ o.keys
  · rw [remove_eq_found o key hm]
    exact get_eq_missing _ _ (not_mem_eraseIdx_lowerCount o.keys key hsort hm)
  · rw [remove_eq_missing o key hm]
    exact get_eq_missing _ _ hm

theorem remove_snd_eq_get (o : Object K V) (key : K) (hm : key ∈ o.keys) :
    (o.remove key).2 = o.get key := by
  rw [remove_eq_found o key hm, get_eq_found o key hm]

/-! ### Entry level lemmas -/

theorem vacant_insert_eq (o : Object K V) (k : K) (v : V) (hm : k ∉ o.keys)
    (hlen : o.keys.length = o.values.length) :
    VacantEntry.insert o k (lowerCount o.keys k) v = ((o.insert k v).1, some v) := by
  unfold VacantEntry.insert
  rw [insert_eq_missing o k v hm]
  rw [getElem?_insertIdx_self o.values _ v
    (by rw [← hlen]; exact lowerCount_le_length _ _)]

theorem or_insert_vacant (o : Object K V) (k : K) (v : V) (h : o.invariant)
    (hm : k ∉ o.keys) :
    Entry.or_insert o (o.entry k) v = ((o.insert k v).1, some v) := by
  rw [entry_eq, if_neg hm]
  unfold Entry.or_insert
  exact vacant_insert_eq o k v hm h.1

theorem or_insert_occupied (o : Object K V) (k : K) (v : V) (hm : k ∈ o.keys) :
    Entry.or_insert o (o.entry k) v = (o, o.get k) := by
  rw [entry_eq, if_pos hm]
  unfold Entry.or_insert OccupiedEntry.get
  rw [get_eq_found o k hm]

omit [LinearOrder K] in
theorem or_insert_with_eq_or_insert (o : Object K V) (e : Entry K)
    (default : Unit → V) :
    Entry.or_insert_with o e default = Entry.or_insert o e (default ()) := by
  cases e <;> rfl

/-! ### Dual sort and append lemmas -/

instance : IsTotal (K × V) (fun a b : K × V => a.1 ≤ b.1) :=
  ⟨fun a b => le_total a.1 b.1⟩

instance : IsTrans (K × V) (fun a b : K × V => a.1 ≤ b.1) :=
  ⟨fun _ _ _ h1 h2 => le_trans h1 h2⟩

theorem zip_map_fst_snd {α β : Type} (ps : List (α × β)) :
    (ps.map Prod.fst).zip (ps.map Prod.snd) = ps :=
  Eq.symm (List.zip_of_prod rfl rfl)

theorem dualSort_pairs (keys : List K) (values : List V) :
    (dualSort keys values).1.zip (dualSort keys values).2 =
      List.insertionSort (fun a b : K × V => a.1 ≤ b.1) (keys.zip values) := by
  unfold dualSort
  exact zip_map_fst_snd _

theorem dualSort_pairs_perm (keys : List K) (values : List V) :
    ((dualSort keys values).1.zip (dualSort keys values).2).Perm
      (keys.zip values) := by
  rw [dualSort_pairs]
  exact List.perm_insertionSort _ _

theorem dualSort_fst_sorted (keys : List K) (values : List V) :
    (dualSort keys values).1.Sorted (· ≤ ·) := by
  unfold dualSort
  have hs := List.sorted_insertionSort (fun a b : K × V => a.1 ≤ b.1) (keys.zip values)
  rw [List.Sorted, List.pairwise_map]
  exact hs

theorem dualSort_lengths (keys : List K) (values : List V)
    (hlen : keys.length = values.length) :
    (dualSort keys values).1.length = keys.length ∧
      (dualSort keys values).2.length = values.length := by
  unfold dualSort
  simp only [List.length_map, List.length_insertionSort, List.length_zip]
  omega

theorem dualSort_fst_perm (keys : List K) (values : List V)
    (hlen : keys.length = values.length) :
    (dualSort keys values).1.Perm keys := by
  unfold dualSort
  have hp :=
    (List.perm_insertionSort (fun a b : K × V => a.1 ≤ b.1) (keys.zip values)).map
      Prod.fst
  rw [List.map_fst_zip keys values (le_of_eq hlen)] at hp
  exact hp

theorem append_snd_empty (o other : Object K V) : (o.append other).2 = ⟨[], []⟩ := rfl

theorem append_keys_sorted_le (o other : Object K V) :
    (o.append other).1.keys.Sorted (· ≤ ·) :=
  dualSort_fst_sorted (o.keys ++ other.keys) (o.values ++ other.values)

theorem append_lengths (o other : Object K V)
    (h1 : o.keys.length = o.values.length)
    (h2 : other.keys.length = other.values.length) :
    (o.append other).1.keys.length = o.keys.length + other.keys.length ∧
      (o.append other).1.values.length = o.values.length + other.values.length := by
  have hds := dualSort_lengths (o.keys ++ other.keys) (o.values ++ other.values)
    (by simp [h1, h2])
  constructor
  · show (dualSort (o.keys ++ other.keys) (o.values ++ other.values)).1.length =
      o.keys.length + other.keys.length
    rw [hds.1, List.length_append]
  · show (dualSort (o.keys ++ other.keys) (o.values ++ other.values)).2.length =
      o.values.length + other.values.length
    rw [hds.2, List.length_append]

theorem append_pairs_perm (o other : Object K V)
    (h1 : o.keys.length = o.values.length) :
    ((o.append other).1.keys.zip (o.append other).1.values).Perm
      (o.keys.zip o.values ++ other.keys.zip other.values) := by
  have hp := dualSort_pairs_perm (o.keys ++ other.keys) (o.values ++ other.values)
  rw [List.zip_append h1] at hp
  exact hp

theorem append_keys_perm (o other : Object K V)
    (h1 : o.keys.length = o.values.length)
    (h2 : other.keys.length = other.values.length) :
    ((o.append other).1.keys).Perm (o.keys ++ other.keys) :=
  dualSort_fst_perm (o.keys ++ other.keys) (o.values ++ other.values)
    (by simp [h1, h2])

theorem append_eqCount (o other : Object K V)
    (h1 : o.keys.length = o.values.length)
    (h2 : other.keys.length = other.values.length) (k : K) :
    eqCount (o.append other).1.keys k =
      eqCount o.keys k + eqCount other.keys k := by
  have hperm := append_keys_perm o other h1 h2
  unfold eqCount
  rw [hperm.countP_eq, List.countP_append]

theorem sorted_lt_of_le_nodup (l : List K) (h1 : l.Pairwise (· ≤ ·))
    (h2 : l.Nodup) : l.Sorted (· < ·) := by
  induction l with
  | nil => simp
  | cons a t ih =>
    rw [List.pairwise_cons] at h1
    rw [List.nodup_cons] at h2
    rw [List.sorted_cons]
    refine ⟨?_, ih h1.2 h2.2⟩
    intro b hb
    refine lt_of_le_of_ne (h1.1 b hb) ?_
    intro heq
    subst heq
    exact h2.1 hb

theorem nodup_of_sorted_lt (l : List K) (h : l.Sorted (· < ·)) : l.Nodup :=
  List.Pairwise.imp (fun hab => ne_of_lt hab) h

theorem adjacent_dup_of_sorted_le (l : List K) (k : K) (h : l.Pairwise (· ≤ ·))
    (hc : 2 ≤ eqCount l k) : ∃ i, l[i]? = some k ∧ l[i + 1]? = some k := by
  induction l with
  | nil => simp [eqCount] at hc
  | cons a t ih =>
    rw [List.pairwise_cons] at h
    obtain ⟨ha, ht⟩ := h
    by_cases hak : a = k
    · subst hak
      have hcnt : eqCount (a :: t) a = eqCount t a + 1 := by
        unfold eqCount
        rw [List.countP_cons, decide_eq_true rfl]
        simp
      rw [hcnt] at hc
      have hmem : a ∈ t := (eqCount_pos_iff t a).1 (by omega)
      cases t with
      | nil => simp at hmem
      | cons b t2 =>
        have hba : b = a := by
          rcases List.mem_cons.1 hmem with rfl | hmem2
          · rfl
          · rw [List.pairwise_cons] at ht
            exact le_antisymm (ht.1 a hmem2) (ha b (List.mem_cons_self b t2))
        subst hba
        exact ⟨0, by simp, by simp⟩
    · have hcnt : eqCount (a :: t) k = eqCount t k := by
        unfold eqCount
        rw [List.countP_cons, decide_eq_false hak]
        simp
      rw [hcnt] at hc
      obtain ⟨i, h1, h2⟩ := ih ht hc
      exact ⟨i + 1, by simpa using h1, by simpa using h2⟩

theorem append_not_invariant_of_shared (o other : Object K V) (k : K)
    (h : o.invariant) (h2 : other.invariant)
    (hk1 : k ∈ o.keys) (hk2 : k ∈ other.keys) :
    ¬((o.append other).1).invariant := by
  intro hinv
  have hcnt := append_eqCount o other h.1 h2.1 k
  have e1 := (eqCount_pos_iff o.keys k).2 hk1
  have e2 := (eqCount_pos_iff other.keys k).2 hk2
  have hle := eqCount_le_one (o.append other).1.keys k hinv.2
  omega

theorem append_invariant_of_disjoint (o other : Object K V)
    (h : o.invariant) (h2 : other.invariant)
    (hd : ∀ x ∈ o.keys, x ∉ other.keys) :
    ((o.append other).1).invariant := by
  obtain ⟨hl1, hs1⟩ := h
  obtain ⟨hl2, hs2⟩ := h2
  have hlens := append_lengths o other hl1 hl2
  refine ⟨by omega, ?_⟩
  have hperm := append_keys_perm o other hl1 hl2
  have hnd : ((o.append other).1.keys).Nodup := by
    refine List.Perm.nodup hperm.symm ?_
    exact List.Nodup.append (nodup_of_sorted_lt _ hs1) (nodup_of_sorted_lt _ hs2) hd
  exact sorted_lt_of_le_nodup _ (append_keys_sorted_le o other) hnd

/-! ### Claim theorems -/

/-- C1: the body of `Object::clear` is `unimplemented!()`, an unconditional panic
(embedded as `none`), so clearing even the freshly created empty object fails
instead of restoring the empty-Object state; the claim that `clear` is implemented
and must not fail is contradicted by the code. -/
theorem C1_clear_unimplemented :
    Object.clear (Object.new : Object Nat Nat) = none := rfl

/-- C2 counterexample: two singleton objects carrying the same key both satisfy the
invariant, yet after `append` the merged key sequence is `[0, 0]`, which is not
strictly increasing, so the invariant does not hold after every `append`. -/
theorem C2_counterexample :
    (Object.mk [0] [10] : Object Nat Nat).invariant ∧
      (Object.mk [0] [20] : Object Nat Nat).invariant ∧
      ¬((Object.mk [0] [10] : Object Nat Nat).append (Object.mk [0] [20])).1.invariant := by
  decide

/-- C2 (amended): after every `insert`, `remove`, and entry-based mutation
(`VacantEntry::insert`, `OccupiedEntry::insert`, `OccupiedEntry::remove`) the
invariant — equal lengths and strictly increasing keys — holds; after `append` the
lengths stay equal and the keys are sorted non-decreasingly, and the full strict
invariant is restored exactly when the two objects share no key (a shared key
survives as a duplicate, breaking strictness). -/
theorem C2_invariant_preservation (o other : Object K V) (k : K) (v : V)
    (h : o.invariant) (h2 : other.invariant) :
    ((o.insert k v).1).invariant ∧
      ((o.remove k).1).invariant ∧
      ((o.append other).1.keys.length = (o.append other).1.values.length ∧
        (o.append other).1.keys.Sorted (· ≤ ·)) ∧
      ((∀ x ∈ o.keys, x ∉ other.keys) → ((o.append other).1).invariant) ∧
      ((∃ x, x ∈ o.keys ∧ x ∈ other.keys) → ¬((o.append other).1).invariant) ∧
      (∀ idx, o.entry k = Entry.Vacant k idx →
        ((VacantEntry.insert o k idx v).1).invariant) ∧
      (∀ idx, o.entry k = Entry.Occupied idx →
        ((OccupiedEntry.insert o idx v).1).invariant ∧
          ((OccupiedEntry.remove o idx).1).invariant) := by
  refine ⟨insert_invariant o k v h, remove_invariant o k h, ?_, ?_, ?_, ?_, ?_⟩
  · obtain ⟨hL1, hL2⟩ := append_lengths o other h.1 h2.1
    have hk : o.keys.length = o.values.length := h.1
    have hk2 : other.keys.length = other.values.length := h2.1
    exact ⟨by omega, append_keys_sorted_le o other⟩
  · intro hd
    exact append_invariant_of_disjoint o other h h2 hd
  · rintro ⟨x, hx1, hx2⟩
    exact append_not_invariant_of_shared o other x h h2 hx1 hx2
  · intro idx hidx
    rw [entry_eq] at hidx
    by_cases hm : k ∈ o.keys
    · rw [if_pos hm] at hidx
      exact absurd hidx (by simp)
    · rw [if_neg hm] at hidx
      have hidx2 : idx = lowerCount o.keys k := by
        cases hidx
        rfl
      subst hidx2
      have hres := insert_invariant o k v h
      rw [insert_eq_missing o k v hm] at hres
      exact hres
  · intro idx hidx
    rw [entry_eq] at hidx
    by_cases hm : k ∈ o.keys
    · constructor
      · refine ⟨?_, h.2⟩
        show o.keys.length = (o.values.set idx v).length
        simpa using h.1
      · rw [if_pos hm] at hidx
        have hidx2 : idx = lowerCount o.keys k := by
          cases hidx
          rfl
        subst hidx2
        have hres := remove_invariant o k h
        rw [remove_eq_found o k hm] at hres
        exact hres
    · rw [if_neg hm] at hidx
      exact absurd hidx (by simp)

/-- C2 witness: the amended invariant-preservation theorem applied at a concrete
object and key. -/
theorem C2_invariant_preservation_witness :
    ((Object.mk [1, 3] [10, 30] : Object Nat Nat).insert 2 20).1.invariant :=
  (C2_invariant_preservation (Object.mk [1, 3] [10, 30]) (Object.mk [5] [50]) 2 20
    (by decide) (by decide)).1

/-- C3: `insert` replaces the value in place and returns the old value when the key
is present; it inserts key and value at the failed-search position and returns
`None` when absent; and a double insert with the same key returns `Some v1` from
the second call and leaves exactly one entry for the key, holding `v2`. -/
theorem C3_insert_semantics (o : Object K V) (k : K) (v v1 v2 : V)
    (h : o.invariant) :
    (∀ pos, o.get_index_for_key k = Except.ok pos →
      o.insert k v = (⟨o.keys, o.values.set pos v⟩, o.values[pos]?) ∧
        (o.insert k v).2.isSome = true) ∧
      (∀ pos, o.get_index_for_key k = Except.error pos →
        o.insert k v =
          (⟨o.keys.insertIdx pos k, o.values.insertIdx pos v⟩, none)) ∧
      (((o.insert k v1).1.insert k v2).2 = some v1 ∧
        eqCount ((o.insert k v1).1.insert k v2).1.keys k = 1 ∧
        ((o.insert k v1).1.insert k v2).1.get k = some v2) := by
  refine ⟨?_, ?_, ?_, ?_, ?_⟩
  · intro pos hpos
    rw [get_index_eq] at hpos
    by_cases hm : k ∈ o.keys
    · rw [if_pos hm] at hpos
      have hpos2 : pos = lowerCount o.keys k := by
        cases hpos
        rfl
      subst hpos2
      refine ⟨insert_eq_found o k v hm, ?_⟩
      rw [insert_eq_found o k v hm]
      have hlt : lowerCount o.keys k < o.values.length := by
        have := lowerCount_lt_length_of_mem o.keys k hm
        have := h.1
        omega
      rw [List.getElem?_eq_getElem hlt]
      rfl
    · rw [if_neg hm] at hpos
      exact absurd hpos (by simp)
  · intro pos hpos
    rw [get_index_eq] at hpos
    by_cases hm : k ∈ o.keys
    · rw [if_pos hm] at hpos
      exact absurd hpos (by simp)
    · rw [if_neg hm] at hpos
      have hpos2 : pos = lowerCount o.keys k := by
        cases hpos
        rfl
      subst hpos2
      exact insert_eq_missing o k v hm
  · have h1 := insert_invariant o k v1 h
    rw [insert_snd_eq_get _ k v2 (mem_insert_self o k v1)]
    exact get_insert_self o k v1 h
  · exact eqCount_insert_self _ k v2 (insert_invariant o k v1 h)
  · exact get_insert_self _ k v2 (insert_invariant o k v1 h)

/-- C3 witness: the insert-semantics theorem applied at a concrete object and key. -/
theorem C3_insert_semantics_witness :
    (((Object.mk [1] [10] : Object Nat Nat).insert 2 7).1.insert 2 9).2 = some 7 :=
  (C3_insert_semantics (Object.mk [1] [10]) 2 5 7 9 (by decide)).2.2.1

/-- C4: `append` empties `other`, the multiset of key-value pairs of the result is
exactly the two sides concatenated (keys to keys, values to values), the resulting
keys are in non-decreasing sorted order, the lengths add up, and per-key
multiplicities add up — in particular nothing is deduplicated, so a key present in
both sides survives as two adjacent equal keys in the result. -/
theorem C4_append_semantics (o other : Object K V)
    (h : o.invariant) (h2 : other.invariant) :
    (o.append other).2 = Object.new ∧
      (o.append other).1.keys.length = o.keys.length + other.keys.length ∧
      (o.append other).1.values.length = o.values.length + other.values.length ∧
      ((o.append other).1.keys.zip (o.append other).1.values).Perm
        (o.keys.zip o.values ++ other.keys.zip other.values) ∧
      (o.append other).1.keys.Sorted (· ≤ ·) ∧
      (∀ k, eqCount (o.append other).1.keys k =
        eqCount o.keys k + eqCount other.keys k) ∧
      (∀ k, k ∈ o.keys → k ∈ other.keys →
        ∃ i, (o.append other).1.keys[i]? = some k ∧
          (o.append other).1.keys[i + 1]? = some k) := by
  have hlens := append_lengths o other h.1 h2.1
  refine ⟨rfl, hlens.1, hlens.2, append_pairs_perm o other h.1,
    append_keys_sorted_le o other, fun k => append_eqCount o other h.1 h2.1 k, ?_⟩
  intro k hk1 hk2
  apply adjacent_dup_of_sorted_le _ k (append_keys_sorted_le o other)
  have hcnt := append_eqCount o other h.1 h2.1 k
  have e1 := (eqCount_pos_iff o.keys k).2 hk1
  have e2 := (eqCount_pos_iff other.keys k).2 hk2
  omega

/-- C4 witness: the append-semantics theorem applied at two concrete objects that
share the key 2. -/
theorem C4_append_semantics_witness :
    ((Object.mk [2] [10] : Object Nat Nat).append (Object.mk [2] [20])).2 =
      Object.new :=
  (C4_append_semantics (Object.mk [2] [10]) (Object.mk [2] [20])
    (by decide) (by decide)).1

/-- C5: when the key is found, `remove` erases the element at the matched position
from both sequences in lock-step and returns the removed value as `Some`, after
which `get` of that key is `None`; removing right after inserting returns the
inserted value; and `remove` of an absent key returns `None` and leaves the map
completely unchanged. -/
theorem C5_remove_semantics (o : Object K V) (k : K) (v : V) (h : o.invariant) :
    (o.contains_key k = true →
      (∀ pos, o.get_index_for_key k = Except.ok pos →
        o.remove k =
          (⟨o.keys.eraseIdx pos, o.values.eraseIdx pos⟩, o.values[pos]?)) ∧
        (o.remove k).2.isSome = true ∧
        ((o.remove k).1).get k = none) ∧
      (((o.insert k v).1.remove k).2 = some v) ∧
      (o.contains_key k = false → o.remove k = (o, none)) := by
  refine ⟨?_, ?_, ?_⟩
  · intro hc
    rw [contains_eq] at hc
    have hm : k ∈ o.keys := of_decide_eq_true hc
    refine ⟨?_, ?_, get_remove_self o k h⟩
    · intro pos hpos
      rw [get_index_eq, if_pos hm] at hpos
      have hpos2 : pos = lowerCount o.keys k := by
        cases hpos
        rfl
      subst hpos2
      exact remove_eq_found o k hm
    · rw [remove_snd_eq_get o k hm]
      exact get_isSome_of_mem o k h.1 hm
  · rw [remove_snd_eq_get _ k (mem_insert_self o k v)]
    exact get_insert_self o k v h
  · intro hc
    rw [contains_eq] at hc
    exact remove_eq_missing o k (of_decide_eq_false hc)

/-- C5 witness: the remove-semantics theorem applied at a concrete object and key. -/
theorem C5_remove_semantics_witness :
    (((Object.mk [1] [10] : Object Nat Nat).insert 2 7).1.remove 2).2 = some 7 :=
  (C5_remove_semantics (Object.mk [1] [10]) 2 7 (by decide)).2.1

/-- C6: `or_insert` on a vacant entry inserts the default at the pre-computed
position and returns the newly stored value, which a subsequent `get` of that key
observes; on an occupied entry it returns the existing stored value and leaves the
object unchanged, and `or_insert_with` then produces the same result whatever
closure it is handed (the closure is never invoked); `or_insert_with` agrees with
`or_insert` on the value its closure would produce. -/
theorem C6_or_insert_semantics (o : Object K V) (k : K) (d : V)
    (f g : Unit → V) (h : o.invariant) :
    (∀ idx, o.entry k = Entry.Vacant k idx →
      Entry.or_insert o (o.entry k) d =
        (⟨o.keys.insertIdx idx k, o.values.insertIdx idx d⟩, some d) ∧
        ((Entry.or_insert o (o.entry k) d).1).get k = some d) ∧
      (∀ idx, o.entry k = Entry.Occupied idx →
        Entry.or_insert o (o.entry k) d = (o, o.get k) ∧
          (o.get k).isSome = true ∧
          Entry.or_insert_with o (o.entry k) f =
            Entry.or_insert_with o (o.entry k) g) ∧
      Entry.or_insert_with o (o.entry k) (fun _ => d) =
        Entry.or_insert o (o.entry k) d := by
  refine ⟨?_, ?_, or_insert_with_eq_or_insert o (o.entry k) (fun _ => d)⟩
  · intro idx hidx
    rw [entry_eq] at hidx
    by_cases hm : k ∈ o.keys
    · rw [if_pos hm] at hidx
      exact absurd hidx (by simp)
    · rw [if_neg hm] at hidx
      have hidx2 : idx = lowerCount o.keys k := by
        cases hidx
        rfl
      subst hidx2
      have hv := or_insert_vacant o k d h hm
      constructor
      · rw [hv, insert_eq_missing o k d hm]
      · rw [hv]
        exact get_insert_self o k d h
  · intro idx hidx
    rw [entry_eq] at hidx
    by_cases hm : k ∈ o.keys
    · refine ⟨or_insert_occupied o k d hm, get_isSome_of_mem o k h.1 hm, ?_⟩
      rw [or_insert_with_eq_or_insert, or_insert_with_eq_or_insert,
        or_insert_occupied o k (f ()) hm, or_insert_occupied o k (g ()) hm]
    · rw [if_neg hm] at hidx
      exact absurd hidx (by simp)

/-- C6 witness: the or-insert-semantics theorem applied at a concrete object,
confirming the lazy closure agreement conjunct. -/
theorem C6_or_insert_semantics_witness :
    Entry.or_insert_with (Object.mk [1] [10] : Object Nat Nat)
        ((Object.mk [1] [10] : Object Nat Nat).entry 2) (fun _ => 7) =
      Entry.or_insert (Object.mk [1] [10] : Object Nat Nat)
        ((Object.mk [1] [10] : Object Nat Nat).entry 2) 7 :=
  (C6_or_insert_semantics (Object.mk [1] [10]) 2 7 (fun _ => 8) (fun _ => 9)
    (by decide)).2.2

/-- C7: read-path indexing — a positional index into an `Array` returns the element
exactly when in bounds and `None` otherwise, a string-like key into an `Object`
returns the matched value or `None`, any key-kind/variant mismatch yields `None`,
and the top-level indexing operator maps every `None` to the `Null` sentinel, so a
read never fails (and, being a pure function of the value, never mutates it). -/
theorem C7_read_indexing (i : Nat) (s : K) (v : Value K) (arr : List (Value K))
    (o : Object K (Value K)) :
    usizeIndexInto i (Value.array arr) = arr[i]? ∧
      ((usizeIndexInto i (Value.array arr)).isSome = true ↔ i < arr.length) ∧
      (v.is_array = false → usizeIndexInto i v = none) ∧
      strIndexInto s (Value.object o) = o.get s ∧
      (v.is_object = false → strIndexInto s v = none) ∧
      Value.indexUsize v i = (usizeIndexInto i v).getD Value.null ∧
      Value.indexStr v s = (strIndexInto s v).getD Value.null ∧
      (usizeIndexInto i v = none → Value.indexUsize v i = Value.null) ∧
      (strIndexInto s v = none → Value.indexStr v s = Value.null) := by
  refine ⟨rfl, ?_, ?_, rfl, ?_, rfl, rfl, ?_, ?_⟩
  · show (arr[i]?).isSome = true ↔ i < arr.length
    constructor
    · intro hs
      by_contra hlt
      rw [List.getElem?_eq_none_iff.mpr (not_lt.1 hlt)] at hs
      exact absurd hs (by simp)
    · intro hlt
      rw [List.getElem?_eq_getElem hlt]
      rfl
  · intro hv
    cases v <;> first | rfl | exact absurd hv (by simp [Value.is_array])
  · intro hv
    cases v <;> first | rfl | exact absurd hv (by simp [Value.is_object])
  · intro hnone
    unfold Value.indexUsize
    rw [hnone]
    rfl
  · intro hnone
    unfold Value.indexStr
    rw [hnone]
    rfl

/-- C7 witness: the read-indexing theorem applied at a concrete value and indexes. -/
theorem C7_read_indexing_witness :
    usizeIndexInto 0 (Value.array [Value.null] : Value Nat) = [Value.null][0]? :=
  (C7_read_indexing 0 1 (Value.array [Value.null]) [Value.null] Object.new).1

/-- C8: write-path indexing — a positional index into an `Array` that is in bounds
returns the existing element without panicking, an out-of-bounds positional index
panics (embedded as `none`), any index applied to a non-matching variant panics,
and a string-like key into an `Object` inserts a `Null` placeholder when the key
is absent (after which `contains_key` is true) and returns the existing value when
present, leaving the object unchanged. -/
theorem C8_write_indexing (i : Nat) (s : K) (v : Value K) (arr : List (Value K))
    (o : Object K (Value K)) (ho : o.invariant) :
    (i < arr.length →
      ∃ x, arr[i]? = some x ∧
        usizeIndexOrInsert i (Value.array arr) = some (Value.array arr, x)) ∧
      (arr.length ≤ i → usizeIndexOrInsert i (Value.array arr) = none) ∧
      (v.is_array = false → usizeIndexOrInsert i v = none) ∧
      (v.is_object = false → strIndexOrInsert s v = none) ∧
      (o.contains_key s = false →
        ∃ o2 : Object K (Value K),
          strIndexOrInsert s (Value.object o) = some (Value.object o2, Value.null) ∧
            o2.contains_key s = true) ∧
      (o.contains_key s = true →
        ∃ x, o.get s = some x ∧
          strIndexOrInsert s (Value.object o) = some (Value.object o, x)) := by
  refine ⟨?_, ?_, ?_, ?_, ?_, ?_⟩
  · intro hi
    refine ⟨arr[i], List.getElem?_eq_getElem hi, ?_⟩
    show (match arr[i]? with
      | some x => some (Value.array arr, x)
      | none => none) = some (Value.array arr, arr[i])
    rw [List.getElem?_eq_getElem hi]
  · intro hi
    show (match arr[i]? with
      | some x => some (Value.array arr, x)
      | none => none) = none
    rw [List.getElem?_eq_none_iff.mpr hi]
  · intro hv
    cases v <;> first | rfl | exact absurd hv (by simp [Value.is_array])
  · intro hv
    cases v <;> first | rfl | exact absurd hv (by simp [Value.is_object])
  · intro hc
    rw [contains_eq] at hc
    have hm : s ∉ o.keys := of_decide_eq_false hc
    refine ⟨(o.insert s Value.null).1, ?_, ?_⟩
    · show (match (Entry.or_insert o (o.entry s) Value.null).2 with
        | some target =>
            some (Value.object (Entry.or_insert o (o.entry s) Value.null).1, target)
        | none => none) =
          some (Value.object (o.insert s Value.null).1, Value.null)
      rw [or_insert_vacant o s Value.null ho hm]
    · rw [contains_eq]
      exact decide_eq_true (mem_insert_self o s Value.null)
  · intro hc
    rw [contains_eq] at hc
    have hm : s ∈ o.keys := of_decide_eq_true hc
    have hs := get_isSome_of_mem o s ho.1 hm
    obtain ⟨x, hx⟩ := Option.isSome_iff_exists.1 hs
    refine ⟨x, hx, ?_⟩
    show (match (Entry.or_insert o (o.entry s) Value.null).2 with
      | some target =>
          some (Value.object (Entry.or_insert o (o.entry s) Value.null).1, target)
      | none => none) = some (Value.object o, x)
    rw [or_insert_occupied o s Value.null hm, hx]

/-- C8 witness: the write-indexing theorem applied at a concrete out-of-bounds
positional index. -/
theorem C8_write_indexing_witness :
    usizeIndexOrInsert 1 (Value.array [Value.null] : Value Nat) = none :=
  (C8_write_indexing 1 0 (Value.array [Value.null]) [Value.null] Object.new
    (by decide)).2.1 (by decide)

/-- C9: `Number` classification and coercions agree — `as_i64` succeeds on a
`PosInt` exactly when it is at most `i64::MAX`, always on a `NegInt`, and never on
a `Float`; `as_u64` succeeds exactly on a `PosInt`; the `is_i64`/`is_u64`/`is_f64`
predicates agree with the coercions and the variant; and `from_f64` fails exactly
on a non-finite input. -/
theorem C9_number_classification (n : Nat) (i : Int) (f : F64) (num : Number) :
    i64Max = 2 ^ 63 - 1 ∧
      ((Number.PosInt n).as_i64.isSome = true ↔ n ≤ i64Max) ∧
      (Number.NegInt i).as_i64 = some i ∧
      (Number.Float f).as_i64 = none ∧
      (Number.Float f).as_u64 = none ∧
      (num.as_u64.isSome = true ↔ ∃ m, num = Number.PosInt m) ∧
      num.is_i64 = num.as_i64.isSome ∧
      num.is_u64 = num.as_u64.isSome ∧
      (num.is_f64 = true ↔ ∃ g, num = Number.Float g) ∧
      (Number.from_f64 f = none ↔ f.isFinite = false) := by
  refine ⟨by decide, ?_, rfl, rfl, rfl, ?_, ?_, ?_, ?_, ?_⟩
  · unfold Number.as_i64
    by_cases hn : n ≤ i64Max
    · simp [hn]
    · simp [hn]
  · cases num <;> simp [Number.as_u64]
  · cases num with
    | PosInt m =>
        show decide (m ≤ i64Max) = (if m ≤ i64Max then some (m : Int) else none).isSome
        by_cases hm : m ≤ i64Max
        · rw [decide_eq_true hm, if_pos hm]
          rfl
        · rw [decide_eq_false hm, if_neg hm]
          rfl
    | NegInt m => rfl
    | Float g => rfl
  · cases num <;> rfl
  · cases num <;> simp [Number.is_f64]
  · unfold Number.from_f64
    by_cases hf : f.isFinite
    · simp [hf]
    · simp [hf]

/-- C10: read-accessor agreement — `contains_key` is true exactly when `get`
returns `Some`, which happens exactly when `get_mut` returns `Some`, all three
resolving the key through the same binary-search routine. -/
theorem C10_accessor_agreement (o : Object K V) (k : K)
    (hlen : o.keys.length = o.values.length) :
    (o.contains_key k = true ↔ (o.get k).isSome = true) ∧
      ((o.get k).isSome = true ↔ (o.get_mut k).isSome = true) := by
  constructor
  · rw [contains_eq, get_isSome_iff o k hlen]
    simp
  · rw [get_mut_eq_get]

/-- C10 witness: the accessor-agreement theorem applied at a concrete object and
key. -/
theorem C10_accessor_agreement_witness :
    (Object.mk [1] [10] : Object Nat Nat).contains_key 1 = true ↔
      ((Object.mk [1] [10] : Object Nat Nat).get 1).isSome = true :=
  (C10_accessor_agreement (Object.mk [1] [10]) 1 (by decide)).1

end PersistentJson
